import Mathlib

/-!
Shallow embedding of the OpenAFS debug tools vldbutil.py and sysidutil.py
from openafs-contrib/afs-tools, together with proofs settling the
specification's claims about them.

Modelling conventions:
  - A backing file is a size plus a random-access byte function (Python file
    objects are seekable, and the tool re-seeks freely).
  - A byte string returned by a read is a size plus a byte function;
    struct.unpack's exact-length requirement becomes a size guard in each
    decoder.
  - Python exceptions (struct.error, AssertionError, IndexError,
    UnicodeDecodeError, TypeError) are modelled by Option: none is a raised
    exception.
  - A dotted-quad address string is modelled by the list of its four numeric
    components, which carries the same information as the string.
  - Unbounded while loops are modelled with an explicit fuel argument; the
    theorems supply enough fuel for the well-formed inputs they treat.
-/

/-- A random-access backing file: a size and a byte at every offset. -/
structure FileM where
  size : Nat
  byteAt : Nat → Nat
deriving Inhabited

/-- A byte string handed back by a read: its length and its bytes. -/
structure Bytes where
  size : Nat
  data : Nat → Nat
deriving Inhabited

/-- Big-endian 32-bit word of a byte string at a given offset,
as produced by struct.unpack of a greater-than I field. -/
def be32 (b : Bytes) (off : Nat) : Nat :=
  b.data off * 16777216 + b.data (off + 1) * 65536 + b.data (off + 2) * 256 + b.data (off + 3)

/-- Big-endian 16-bit word of a byte string at a given offset. -/
def be16 (b : Bytes) (off : Nat) : Nat :=
  b.data off * 256 + b.data (off + 1)

/-- The constant shift between logical database addresses and physical file
offsets: VLDB0.DBASE_OFFSET in vldbutil.py. -/
def DBASE_OFFSET : Nat := 64

/-- VLDB0.vlread: seek to address + DBASE_OFFSET and read size bytes.
Python file.read returns at most the requested count and silently returns
fewer bytes near end-of-file, so the result size is the minimum of the
request and the bytes remaining. -/
def vlread (f : FileM) (address size : Nat) : Bytes :=
  ⟨min size (f.size - (address + DBASE_OFFSET)), fun i => f.byteAt (address + DBASE_OFFSET + i)⟩

/-- UUID as decoded by both tools (time fields, clock bytes, 6-byte node). -/
structure UUID where
  time_low : Nat
  time_mid : Nat
  time_hi : Nat
  clock_hi : Nat
  clock_low : Nat
  node : List Nat
deriving DecidableEq, Inhabited

/-- UbikHeader fields, struct format greater-than I 2H 2I. -/
structure UbikHeader where
  magic : Nat
  pad1 : Nat
  size : Nat
  v_epoch : Nat
  v_counter : Nat
deriving DecidableEq, Inhabited

/-- UbikHeader.__init__: unpack the 16-byte top-level header.  No magic or
version validation is performed by the source; unpack only fails when the
buffer length is wrong. -/
def UbikHeader.decode (b : Bytes) : Option UbikHeader :=
  if b.size = 16 then
    some ⟨be32 b 0, be16 b 4, be16 b 6, be32 b 8, be32 b 12⟩
  else none

/-- VLHeader: the catalog header, struct format greater-than 10I 255I
8191I 8191I 8191I 8191I I (132120 bytes). -/
structure VLHeader where
  vldbversion : Nat
  headersize : Nat
  freePtr : Nat
  eofPtr : Nat
  allocs : Nat
  frees : Nat
  MaxVolumeId : Nat
  totalRW : Nat
  totalRO : Nat
  totalBK : Nat
  IpMappedAddr : List Nat
  VolnameHash : List Nat
  VolidHashRW : List Nat
  VolidHashRO : List Nat
  VolidHashBK : List Nat
  SIT : Nat
deriving Inhabited

/-- VLHeader.__init__: unpack the catalog header.  Field i of the unpack
tuple sits at byte offset 4 * i; the slices vals 10:265, 265:8456, 8456:16647,
16647:24838 and 24838:33029 become the address and hash-bucket arrays, and
vals 33029 is the continuation-block pointer SIT. -/
def VLHeader.decode (b : Bytes) : Option VLHeader :=
  if b.size = 132120 then
    some ⟨be32 b 0, be32 b 4, be32 b 8, be32 b 12, be32 b 16, be32 b 20,
          be32 b 24, be32 b 28, be32 b 32, be32 b 36,
          (List.range 255).map (fun i => be32 b (40 + 4 * i)),
          (List.range 8191).map (fun i => be32 b (1060 + 4 * i)),
          (List.range 8191).map (fun i => be32 b (33824 + 4 * i)),
          (List.range 8191).map (fun i => be32 b (66588 + 4 * i)),
          (List.range 8191).map (fun i => be32 b (99352 + 4 * i)),
          be32 b 132116⟩
  else none

/-- Strip trailing NUL bytes, as Python rstrip of a NUL does on the decoded
fixed-width name field. -/
def stripNulRight (l : List Nat) : List Nat :=
  (l.reverse.dropWhile (fun v => v == 0)).reverse

/-- VLEntry: one volume record, struct format greater-than 11I 65s 13B 13B 13B
(148 bytes), plus the virtual address and offset fields. -/
structure VLEntry where
  address : Nat
  offset : Nat
  rwid : Nat
  roid : Nat
  bkid : Nat
  flags : Nat
  LockAfsId : Nat
  LockTimestamp : Nat
  cloneId : Nat
  nextIdHashRW : Nat
  nextIdHashRO : Nat
  nextIdHashBK : Nat
  nextNameHash : Nat
  name : List Nat
  serverNumber : List Nat
  serverPartition : List Nat
  serverFlags : List Nat
deriving DecidableEq, Inhabited

/-- VLEntry.__init__: unpack a 148-byte volume record.  The name field is
65 bytes at offset 44, decoded as ASCII (bytes of 128 or more raise, modelled
as none) and stripped of trailing NULs; the three 13-byte site arrays follow. -/
def VLEntry.decode (b : Bytes) (address : Nat) : Option VLEntry :=
  if b.size = 148 then
    let nameRaw := (List.range 65).map (fun i => b.data (44 + i))
    if ∀ v ∈ nameRaw, v < 128 then
      some ⟨address, address + DBASE_OFFSET,
            be32 b 0, be32 b 4, be32 b 8, be32 b 12, be32 b 16, be32 b 20,
            be32 b 24, be32 b 28, be32 b 32, be32 b 36, be32 b 40,
            stripNulRight nameRaw,
            (List.range 13).map (fun i => b.data (109 + i)),
            (List.range 13).map (fun i => b.data (122 + i)),
            (List.range 13).map (fun i => b.data (135 + i))⟩
    else none
  else none

/-- MHBlockHeader: continuation-block header, struct format greater-than
1I 2I 1I 4I 24I (128 bytes). -/
structure MHBlockHeader where
  address : Nat
  offset : Nat
  count : Nat
  flags : Nat
  contaddr : List Nat
deriving DecidableEq, Inhabited

/-- MHBlockHeader.__init__: unpack a 128-byte continuation-block header;
count is vals 0, flags is vals 3, contaddr is the 4-element slice vals 4:8.
The source asserts that flags equals VLCONTBLOCK (8); a failed assert is
modelled as none. -/
def MHBlockHeader.decode (b : Bytes) (address : Nat) : Option MHBlockHeader :=
  if b.size = 128 then
    let flags := be32 b 12
    if flags = 8 then
      some ⟨address, address + DBASE_OFFSET, be32 b 0, flags,
            [be32 b 16, be32 b 20, be32 b 24, be32 b 28]⟩
    else none
  else none

/-- Dotted-quad form of a packed 32-bit address, modelled as the list of its
four decimal components, as socket.inet_ntoa produces from a big-endian
packed word. -/
def inet_ntoa (ua : Nat) : List Nat :=
  [ua / 16777216 % 256, ua / 65536 % 256, ua / 256 % 256, ua % 256]

/-- MHEntry: a 128-byte multi-homed entry.  The struct format is
greater-than I H H s s 6s I 15I I 11I; the decoded fields follow
MHEntry.__init__ exactly: uuid from vals 0:6, uniquifier vals 6,
unpacked_addrs vals 7:22, and flags taken from vals 23 (byte offset 84),
which is the first of the 11 trailing spare words, not the lone word at
byte offset 80 between the addresses and the spares. -/
structure MHEntry where
  address : Nat
  offset : Nat
  uuid : UUID
  uniquifier : Nat
  unpacked_addrs : List Nat
  flags : Nat
  addrs : List (List Nat)
deriving DecidableEq, Inhabited

/-- MHEntry.__init__: unpack a 128-byte multi-homed entry and keep the
dotted forms of the non-zero packed addresses, in order. -/
def MHEntry.decode (b : Bytes) (address : Nat) : Option MHEntry :=
  if b.size = 128 then
    let unpacked := (List.range 15).map (fun i => be32 b (20 + 4 * i))
    some ⟨address, address + DBASE_OFFSET,
          ⟨be32 b 0, be16 b 4, be16 b 6, b.data 8, b.data 9,
           (List.range 6).map (fun i => b.data (10 + i))⟩,
          be32 b 16,
          unpacked,
          be32 b 84,
          (unpacked.filter (fun ua => ua != 0)).map inet_ntoa⟩
  else none

/-- Server, the namedtuple resolved from a slot of the packed address table. -/
structure Server where
  number : Nat
  uuid : Option UUID
  addrs : List (List Nat)
deriving DecidableEq, Inhabited

/-- The open database handle: VLDB0.__init__ keeps the decoded top-level
header, the decoded catalog header, the 4-element continuation block address
table, and the backing file. -/
structure VLDB0 where
  ubik_header : UbikHeader
  vl_header : VLHeader
  mhblocks : List Nat
  file : FileM
deriving Inhabited

/-- VLDB0.__init__: read the 16-byte top-level header from physical offset 0,
decode the catalog header from logical address 0, then read the first
continuation block header at the catalog's SIT pointer and retain its
contaddr table.  No magic or version check is made anywhere. -/
def openVLDB (f : FileM) : Option VLDB0 :=
  match UbikHeader.decode ⟨min 16 f.size, f.byteAt⟩ with
  | none => none
  | some uh =>
    match VLHeader.decode (vlread f 0 132120) with
    | none => none
    | some vh =>
      match MHBlockHeader.decode (vlread f vh.SIT 128) vh.SIT with
      | none => none
      | some bh => some ⟨uh, vh, bh.contaddr, f⟩

/-- VLDB0.vlreadentry: read and decode a volume record at an address. -/
def vlreadentry (db : VLDB0) (address : Nat) : Option VLEntry :=
  VLEntry.decode (vlread db.file address 148) address

/-- VLDB0.mhreadentry: read and decode a multi-homed entry at an address. -/
def mhreadentry (db : VLDB0) (address : Nat) : Option MHEntry :=
  MHEntry.decode (vlread db.file address 128) address

/-- VLDB0.lookup_mh: assert 0 le block le 4 and 1 le index le 63, then read
the entry at mhblocks at block plus index times 128.  The retained mhblocks
table has 4 entries, so indexing it at block 4 raises IndexError (none). -/
def lookup_mh (db : VLDB0) (block index : Nat) : Option MHEntry :=
  if block ≤ 4 then
    if 1 ≤ index ∧ index ≤ 63 then
      match db.mhblocks.get? block with
      | some base => mhreadentry db (base + index * 128)
      | none => none
    else none
  else none

/-- VLDB0._server: resolve one packed address-table slot.  A zero value gives
an empty Server; a most-significant byte of 0xFF selects the multi-homed
indirection (bits 8 to 23 the block, low 8 bits the entry index); anything
else is a single direct big-endian IPv4 address. -/
def server_of (db : VLDB0) (number addr : Nat) : Option Server :=
  if addr ≠ 0 then
    if addr / 16777216 = 255 then
      match lookup_mh db (addr / 256 % 65536) (addr % 256) with
      | some mh => some ⟨number, some mh.uuid, mh.addrs⟩
      | none => none
    else some ⟨number, none, [inet_ntoa addr]⟩
  else some ⟨number, none, []⟩

/-- VLDB0.lookup_server: index the 255-entry packed address table at the slot
number (IndexError, modelled none, when the slot is out of range) and
resolve it. -/
def lookup_server (db : VLDB0) (number : Nat) : Option Server :=
  match db.vl_header.IpMappedAddr.get? number with
  | some addr => server_of db number addr
  | none => none

/-- VLDB0._walk_hash: follow a chain of records linked by a next-pointer
field, stopping at address 0.  The source loop has no bound; the fuel
argument makes the embedding total, and none from exhausted fuel models
non-termination on a corrupt chain. -/
def walk_hash_fuel (db : VLDB0) (next : VLEntry → Nat) : Nat → Nat → Option (List VLEntry)
  | _, 0 => some []
  | 0, _ => none
  | fuel + 1, addr =>
      match vlreadentry db addr with
      | none => none
      | some e =>
        match walk_hash_fuel db next fuel (next e) with
        | none => none
        | some rest => some (e :: rest)

/-- VLDB0.walk_namehash: the chain walk specialised to the name-hash
next-pointer. -/
def walk_namehash_fuel (db : VLDB0) (fuel addr : Nat) : Option (List VLEntry) :=
  walk_hash_fuel db (fun e => e.nextNameHash) fuel addr

/-- The loop inside VLDB0.lookup_name: consume the name-hash chain lazily and
return the first entry whose stripped name equals the argument; some none
is chain exhausted without a match (not an error). -/
def lookup_loop (db : VLDB0) (volname : List Nat) : Nat → Nat → Option (Option VLEntry)
  | _, 0 => some none
  | 0, _ => none
  | fuel + 1, addr =>
      match vlreadentry db addr with
      | none => none
      | some e =>
          if e.name == volname then some (some e)
          else lookup_loop db volname fuel e.nextNameHash

/-- The loop body of VLDB0.hash_name: iterate the code points (already
reversed by the caller), raising TypeError (none) on a value above 255,
with a 32-bit accumulator. -/
def hash_loop : Int → List Nat → Option Int
  | ret, [] => some ret
  | ret, v :: rest =>
      if 255 < v then none
      else hash_loop ((ret * 63 + ((v : Int) - 63)) % 4294967296) rest

/-- VLDB0.hash_name: fold the name's code points in reverse order and reduce
modulo HASHSIZE (8191). -/
def hash_name (volname : List Nat) : Option Nat :=
  (hash_loop 0 volname.reverse).map (fun r => (r % 8191).toNat)

/-- VLDB0.lookup_name: hash the name, index the VolnameHash bucket array
(IndexError modelled as none), and walk the chain looking for an exact
name match. -/
def lookup_name_fuel (db : VLDB0) (fuel : Nat) (volname : List Nat) : Option (Option VLEntry) :=
  match hash_name volname with
  | none => none
  | some idx =>
    match db.vl_header.VolnameHash.get? idx with
    | none => none
    | some addr => lookup_loop db volname fuel addr

/-- The loop of VLDB0.walk_entries: scan sequentially from an address up to
the end-of-data pointer; a record whose flags equal 0x8 occupies 8192 bytes
and is skipped, any other record occupies 148 bytes and is yielded. -/
def walk_entries_fuel (db : VLDB0) : Nat → Nat → Option (List VLEntry)
  | 0, _ => none
  | fuel + 1, addr =>
      if addr < db.vl_header.eofPtr then
        match vlreadentry db addr with
        | none => none
        | some e =>
          if e.flags = 8 then walk_entries_fuel db fuel (addr + 8192)
          else
            match walk_entries_fuel db fuel (addr + 148) with
            | none => none
            | some rest => some (e :: rest)
      else some []

/-- VLDB0.walk_entries with the default start: the scan begins at the
catalog's headersize address.  Each iteration advances the address by at
least 148, so eofPtr + 1 units of fuel always suffice. -/
def walk_entries (db : VLDB0) : Option (List VLEntry) :=
  walk_entries_fuel db (db.vl_header.eofPtr + 1) db.vl_header.headersize

/-- The address list of a well-formed (finite, acyclic, 0-terminated) chain:
isChain db next addr l holds when the chain starting at addr visits exactly
the addresses of l in order and ends at a 0 next-pointer, with every record
decodable. -/
def isChain (db : VLDB0) (next : VLEntry → Nat) : Nat → List Nat → Prop
  | addr, [] => addr = 0
  | addr, a :: rest =>
      addr ≠ 0 ∧ a = addr ∧
      ∃ e, vlreadentry db addr = some e ∧ isChain db next (next e) rest

/-- Byte of a list-modelled byte string, 0 past the end (all decoders guard
lengths before use). -/
def byteAtL (l : List Nat) (i : Nat) : Nat := (l.get? i).getD 0

/-- Big-endian 32-bit word of a list-modelled byte string. -/
def be32L (l : List Nat) (off : Nat) : Nat :=
  byteAtL l off * 16777216 + byteAtL l (off + 1) * 65536 + byteAtL l (off + 2) * 256 + byteAtL l (off + 3)

/-- Big-endian 16-bit word of a list-modelled byte string. -/
def be16L (l : List Nat) (off : Nat) : Nat :=
  byteAtL l off * 256 + byteAtL l (off + 1)

/-- Native-order (little-endian on the machines the tool targets) 32-bit
word of a list-modelled byte string, for the equal-sign I struct fields of
sysidutil.py. -/
def le32L (l : List Nat) (off : Nat) : Nat :=
  byteAtL l off + byteAtL l (off + 1) * 256 + byteAtL l (off + 2) * 65536 + byteAtL l (off + 3) * 16777216

/-- The four bytes struct.pack bang I produces for a value below 2 to the 32. -/
def be32bytesL (n : Nat) : List Nat :=
  [n / 16777216, n / 65536 % 256, n / 256 % 256, n % 256]

/-- The two bytes struct.pack bang H produces for a value below 65536. -/
def be16bytesL (n : Nat) : List Nat :=
  [n / 256, n % 256]

/-- The four bytes struct.pack equal-sign I produces for a value below
2 to the 32, in native (little-endian) order. -/
def le32bytesL (n : Nat) : List Nat :=
  [n % 256, n / 256 % 256, n / 65536 % 256, n / 16777216]

/-- sysidutil UUID.decode: unpack a 16-byte slice with format
bang I H H B B 6B. -/
def UUID.fromBytesL (l : List Nat) : UUID :=
  ⟨be32L l 0, be16L l 4, be16L l 6, byteAtL l 8, byteAtL l 9, (l.drop 10).take 6⟩

/-- sysidutil UUID.encode: pack the uuid fields with format bang I H H B B 6B.
struct.pack raises (none) when a field is out of range for its width or the
node tuple does not hold exactly 6 byte values. -/
def UUID.encodeL (u : UUID) : Option (List Nat) :=
  if u.time_low < 4294967296 ∧ u.time_mid < 65536 ∧ u.time_hi < 65536 ∧
     u.clock_hi < 256 ∧ u.clock_low < 256 ∧ u.node.length = 6 ∧ (∀ b ∈ u.node, b < 256) then
    some (be32bytesL u.time_low ++ be16bytesL u.time_mid ++ be16bytesL u.time_hi ++
          u.clock_hi :: u.clock_low :: u.node)
  else none

/-- socket.inet_aton applied to a canonical dotted quad (modelled as its four
components): validation plus the packed big-endian bytes. -/
def inet_aton (q : List Nat) : Option (List Nat) :=
  match q with
  | [a, b, c, d] => if a < 256 ∧ b < 256 ∧ c < 256 ∧ d < 256 then some [a, b, c, d] else none
  | _ => none

/-- struct.unpack of bang nI: n consecutive big-endian 32-bit words. -/
def beWordsL : Nat → List Nat → List Nat
  | 0, _ => []
  | n + 1, l => be32L l 0 :: beWordsL n (l.drop 4)

/-- The Sysid record: magic, version, uuid and the decoded address list
(dotted quads modelled as component lists). -/
structure Sysid where
  magic : Nat
  version : Nat
  uuid : UUID
  addrs : List (List Nat)
deriving DecidableEq, Inhabited

/-- Sysid.decode: unpack and validate magic (0x88aabbcc), version (1),
address count (0 to 255) and exact total length (28 + 4 * count), then
decode the uuid from bytes 8 to 23 and the addresses from byte 28 on. -/
def Sysid.decode (data : List Nat) : Option Sysid :=
  if data.length < 8 then none else
  let magic := le32L data 0
  let version := le32L data 4
  if magic ≠ 0x88aabbcc then none else
  if version ≠ 1 then none else
  if data.length < 24 then none else
  let uuid := UUID.fromBytesL ((data.drop 8).take 16)
  if data.length < 28 then none else
  let num_addrs := le32L data 24
  if 255 < num_addrs then none else
  if data.length ≠ 28 + 4 * num_addrs then none else
  some ⟨magic, version, uuid, (beWordsL num_addrs (data.drop 28)).map inet_ntoa⟩

/-- The address loop of Sysid.encode: append inet_aton of each address in
order, propagating failure. -/
def Sysid.encodeAddrs : List (List Nat) → Option (List Nat)
  | [] => some []
  | q :: rest =>
      match inet_aton q with
      | none => none
      | some pa =>
        match Sysid.encodeAddrs rest with
        | none => none
        | some tail => some (pa ++ tail)

/-- Sysid.encode: pack magic, version, uuid, address count and the packed
addresses.  struct.pack range failures are modelled as none. -/
def Sysid.encode (s : Sysid) : Option (List Nat) :=
  if s.magic < 4294967296 ∧ s.version < 4294967296 ∧ s.addrs.length < 4294967296 then
    match UUID.encodeL s.uuid with
    | none => none
    | some ub =>
      match Sysid.encodeAddrs s.addrs with
      | none => none
      | some pas =>
        some (le32bytesL s.magic ++ le32bytesL s.version ++ ub ++
              le32bytesL s.addrs.length ++ pas)
  else none

/-- The name-hash algorithm as the specification words it: iterate the bytes
in reverse order, accumulator times 63 plus byte minus 63, reduced modulo
2 to the 32 at each step and modulo 8191 at the end.  Written from the
specification, to be compared with hash_name, which is written from the
source. -/
def hashNameSpec (name : List Nat) : Nat :=
  ((name.reverse.foldl (fun acc v => (acc * 63 + ((v : Int) - 63)) % 4294967296) 0) % 8191).toNat

/-- Synthetic database file whose leading magic bytes decode to 0xDE000000:
well-formed enough to open (catalog header readable, SIT 0, continuation
flags word 8 at physical bytes 76 to 79). -/
def fileC1a : FileM :=
  ⟨132184, fun i => if i = 0 then 222 else if i = 79 then 8 else 0⟩

/-- The same synthetic database file with zero magic bytes: it differs from
fileC1a exactly in the first byte of the top-level header. -/
def fileC1b : FileM :=
  ⟨132184, fun i => if i = 79 then 8 else 0⟩

/-- Synthetic database file for the name lookup: a volume record named a
(byte 97 at physical offset 208) with zero next-pointers lies at logical
address 100. -/
def fileC3 : FileM := ⟨312, fun i => if i = 208 then 97 else 0⟩

/-- A catalog header whose 8191-entry VolnameHash holds address 100 in
bucket 34 (the bucket of the one-letter name a, whose hash is 34). -/
def vhC3 : VLHeader :=
  ⟨0, 0, 0, 0, 0, 0, 0, 0, 0, 0, [],
   List.replicate 34 0 ++ 100 :: List.replicate 8156 0, [], [], [], 0⟩

/-- The handle over fileC3 with the vhC3 catalog header. -/
def dbC3 : VLDB0 := ⟨default, vhC3, [], fileC3⟩

/-- The one volume record of fileC3. -/
def eC3 : VLEntry := (vlreadentry dbC3 100).getD default

/-- A catalog header with headersize 0 and eofPtr 148: one record scan. -/
def vhC4 : VLHeader := ⟨0, 0, 0, 148, 0, 0, 0, 0, 0, 0, [], [], [], [], [], 0⟩

/-- A handle over an all-zero 212-byte file with the vhC4 catalog header. -/
def dbC4 : VLDB0 := ⟨default, vhC4, [], ⟨212, fun _ => 0⟩⟩

/-- The one record dbC4's sequential scan yields. -/
def eC4 : VLEntry := (vlreadentry dbC4 0).getD default

/-- A handle whose retained continuation-block table is [1000, 2000, 3000,
4000]: the shape every opened handle has (4 entries). -/
def dbC5x : VLDB0 := ⟨default, default, [1000, 2000, 3000, 4000], ⟨0, fun _ => 0⟩⟩

/-- A handle with 4 zero continuation-block addresses over an all-zero
320-byte file, so multi-homed entry 1 of block 0 decodes. -/
def dbC5w : VLDB0 := ⟨default, default, [0, 0, 0, 0], ⟨320, fun _ => 0⟩⟩

/-- A minimal openable database file (zero magic, SIT 0, continuation flags
word 8). -/
def fileC5o : FileM := ⟨132184, fun i => if i = 79 then 8 else 0⟩

/-- The handle obtained by opening fileC5o. -/
def dbC5o : VLDB0 := (openVLDB fileC5o).getD default

/-- The multi-homed entry at address 128 of dbC5w (entry 1 of block 0). -/
def mhC5 : MHEntry := (mhreadentry dbC5w 128).getD default

/-- Synthetic database file holding a 3-element name chain
200 to 400 to 600 to 0 (next-pointers stored at physical 304..307, 504..507,
704..707). -/
def fileC6 : FileM :=
  ⟨812, fun i =>
    if i = 306 then 1 else if i = 307 then 144
    else if i = 506 then 2 else if i = 507 then 88 else 0⟩

/-- A handle over fileC6 (chain traversal touches only the file). -/
def dbC6 : VLDB0 := ⟨default, default, [], fileC6⟩

/-- The record at address 200 of fileC6. -/
def eC6a : VLEntry := (vlreadentry dbC6 200).getD default

/-- The record at address 400 of fileC6. -/
def eC6b : VLEntry := (vlreadentry dbC6 400).getD default

/-- The record at address 600 of fileC6. -/
def eC6c : VLEntry := (vlreadentry dbC6 600).getD default

/-- A 128-byte multi-homed entry buffer whose word at offset 80 (the flags
field right after the 15 packed addresses) is 1 and whose word at offset 84
(the first spare) is 2. -/
def bufC7 : Bytes := ⟨128, fun i => if i = 83 then 1 else if i = 87 then 2 else 0⟩

/-- A 70-byte backing file of constant bytes 5. -/
def fileC8 : FileM := ⟨70, fun _ => 5⟩

/-- A 200-byte backing file of constant bytes 7. -/
def fileC8w : FileM := ⟨200, fun _ => 7⟩

/-- A 32-byte sysid image: magic 0x88aabbcc, version 1, zero uuid, one
address 10.0.0.1. -/
def dataC9 : List Nat :=
  [204, 187, 170, 136, 1, 0, 0, 0] ++ List.replicate 16 0 ++ [1, 0, 0, 0, 10, 0, 0, 1]

/-- The Sysid record decoded from dataC9. -/
def sC9 : Sysid := (Sysid.decode dataC9).getD default

/-- An all-zero catalog header image. -/
def bC10 : Bytes := ⟨132120, fun _ => 0⟩

/-- The catalog header decoded from bC10. -/
def vhC10 : VLHeader := (VLHeader.decode bC10).getD default

/-- A handle carrying the vhC10 catalog header. -/
def dbC10 : VLDB0 := ⟨default, vhC10, [], default⟩

/-- The byte values of the volume name root.cell. -/
def nameC2 : List Nat := [114, 111, 111, 116, 46, 99, 101, 108, 108]

/-- The byte values of the one-letter volume name a. -/
def nameC3 : List Nat := [97]

theorem hash_loop_eq_foldl (l : List Nat) (acc : Int) (h : ∀ v ∈ l, v ≤ 255) :
    hash_loop acc l =
      some (l.foldl (fun a v => (a * 63 + ((v : Int) - 63)) % 4294967296) acc) := by
  induction l generalizing acc with
  | nil => rfl
  | cons v rest ih =>
      have hv : v ≤ 255 := h v (List.mem_cons_self v rest)
      simp only [hash_loop, List.foldl_cons, if_neg (show ¬ 255 < v by omega)]
      exact ih _ (fun w hw => h w (List.mem_cons_of_mem v hw))

theorem hash_name_lt (volname : List Nat) (idx : Nat)
    (h : hash_name volname = some idx) : idx < 8191 := by
  unfold hash_name at h
  cases hl : hash_loop 0 volname.reverse with
  | none => rw [hl] at h; simp at h
  | some r =>
      rw [hl] at h
      simp only [Option.map_some', Option.some.injEq] at h
      have h1 : 0 ≤ r % 8191 := Int.emod_nonneg r (by decide)
      have h2 : r % 8191 < 8191 := Int.emod_lt_of_pos r (by decide)
      omega

/-- C2: for a name all of whose code points are at most 255, hash_name
returns exactly the value described by the specification's algorithm
(reverse iteration, 32-bit accumulator, final reduction modulo 8191), and
that value is at most 8190.  Determinism is immediate since hash_name is a
pure function of its argument. -/
theorem C2_hash_name_spec (name : List Nat) (h : ∀ v ∈ name, v ≤ 255) :
    hash_name name = some (hashNameSpec name) ∧ hashNameSpec name ≤ 8190 := by
  have hrev : ∀ v ∈ name.reverse, v ≤ 255 := fun v hv => h v (List.mem_reverse.mp hv)
  constructor
  · unfold hash_name hashNameSpec
    rw [hash_loop_eq_foldl _ _ hrev]
    rfl
  · unfold hashNameSpec
    have h1 : 0 ≤ (name.reverse.foldl
        (fun acc v => (acc * 63 + ((v : Int) - 63)) % 4294967296) 0) % 8191 :=
      Int.emod_nonneg _ (by decide)
    have h2 : (name.reverse.foldl
        (fun acc v => (acc * 63 + ((v : Int) - 63)) % 4294967296) 0) % 8191 < 8191 :=
      Int.emod_lt_of_pos _ (by decide)
    omega

/-- C2 witness: the hypothesis and conclusion of C2_hash_name_spec hold at
the concrete name root.cell. -/
theorem C2_witness :
    (∀ v ∈ nameC2, v ≤ 255) ∧
      (hash_name nameC2 = some (hashNameSpec nameC2) ∧ hashNameSpec nameC2 ≤ 8190) :=
  ⟨by decide, C2_hash_name_spec nameC2 (by decide)⟩

theorem isChain_det (db : VLDB0) (next : VLEntry → Nat) :
    ∀ (l₁ : List Nat) (addr : Nat) (l₂ : List Nat),
      isChain db next addr l₁ → isChain db next addr l₂ → l₁ = l₂ := by
  intro l₁
  induction l₁ with
  | nil =>
      intro addr l₂ h1 h2
      cases l₂ with
      | nil => rfl
      | cons b rest2 =>
          simp only [isChain] at h1 h2
          exact absurd h1 h2.1
  | cons a rest ih =>
      intro addr l₂ h1 h2
      simp only [isChain] at h1
      obtain ⟨hne, ha, e, he, hrest⟩ := h1
      cases l₂ with
      | nil =>
          simp only [isChain] at h2
          exact absurd h2 hne
      | cons b rest2 =>
          simp only [isChain] at h2
          obtain ⟨_, hb, e2, he2, hrest2⟩ := h2
          have hee : e2 = e := by
            rw [he] at he2
            exact (Option.some.inj he2).symm
          rw [ha, hb, ih (next e) rest2 hrest (hee ▸ hrest2)]

theorem isChain_suffix (db : VLDB0) (next : VLEntry → Nat) :
    ∀ (u : List Nat) (addr b : Nat) (v : List Nat),
      isChain db next addr (u ++ b :: v) → isChain db next b (b :: v) := by
  intro u
  induction u with
  | nil =>
      intro addr b v h
      simp only [List.nil_append] at h
      have hb : b = addr := by
        simp only [isChain] at h
        exact h.2.1
      subst hb
      exact h
  | cons x u' ih =>
      intro addr b v h
      simp only [List.cons_append, isChain] at h
      obtain ⟨hne, hx, e, he, hrest⟩ := h
      exact ih (next e) b v hrest

theorem isChain_nodup (db : VLDB0) (next : VLEntry → Nat) :
    ∀ (l : List Nat) (addr : Nat), isChain db next addr l → l.Nodup := by
  intro l
  induction l with
  | nil => intro addr _; exact List.nodup_nil
  | cons a rest ih =>
      intro addr h
      simp only [isChain] at h
      obtain ⟨hne, ha, e, he, hrest⟩ := h
      subst ha
      refine List.nodup_cons.mpr ⟨?_, ih _ hrest⟩
      intro hmem
      obtain ⟨u, v, huv⟩ := List.append_of_mem hmem
      rw [huv] at hrest
      have hv : isChain db next a (a :: v) := isChain_suffix db next u (next e) a v hrest
      have hfull : isChain db next a (a :: (u ++ a :: v)) := by
        simp only [isChain]
        exact ⟨hne, trivial, e, he, hrest⟩
      have heq := isChain_det db next (a :: (u ++ a :: v)) a (a :: v) hfull hv
      have hlen := congrArg List.length heq
      simp only [List.length_cons, List.length_append] at hlen
      omega

theorem walk_hash_fuel_succ (db : VLDB0) (next : VLEntry → Nat) (k a : Nat) :
    walk_hash_fuel db next (k + 1) (a + 1) =
      match vlreadentry db (a + 1) with
      | none => none
      | some e =>
        match walk_hash_fuel db next k (next e) with
        | none => none
        | some rest => some (e :: rest) := rfl

theorem walk_hash_fuel_zero (db : VLDB0) (next : VLEntry → Nat) (fuel : Nat) :
    walk_hash_fuel db next fuel 0 = some [] := by
  cases fuel <;> rfl

theorem walk_hash_fuel_chain (db : VLDB0) (next : VLEntry → Nat) :
    ∀ (l : List Nat) (addr fuel : Nat),
      isChain db next addr l → l.length ≤ fuel →
      ∃ es, walk_hash_fuel db next fuel addr = some es ∧
        List.Forall₂ (fun a e => vlreadentry db a = some e) l es := by
  intro l
  induction l with
  | nil =>
      intro addr fuel hc _
      simp only [isChain] at hc
      subst hc
      exact ⟨[], walk_hash_fuel_zero db next fuel, List.Forall₂.nil⟩
  | cons a rest ih =>
      intro addr fuel hc hf
      simp only [isChain] at hc
      obtain ⟨hne, ha, e, he, hrest⟩ := hc
      subst ha
      obtain ⟨k, rfl⟩ : ∃ k, fuel = k + 1 := by
        cases fuel with
        | zero => simp only [List.length_cons] at hf; omega
        | succ k => exact ⟨k, rfl⟩
      obtain ⟨m, hm⟩ : ∃ m, a = m + 1 := Nat.exists_eq_succ_of_ne_zero hne
      subst hm
      obtain ⟨es', hw, hF⟩ := ih (next e) k hrest (by simp only [List.length_cons] at hf; omega)
      refine ⟨e :: es', ?_, List.Forall₂.cons he hF⟩
      rw [walk_hash_fuel_succ, he]
      dsimp only
      rw [hw]

/-- C6: on an acyclic, 0-terminated chain (isChain lists its addresses in
order, ending at a 0 next-pointer), the chain walk of VLDB0._walk_hash
terminates with any fuel of at least the chain length and yields exactly the
record of each chain address once, in chain order; a 0 head address yields
the empty sequence, and the address list is duplicate-free. -/
theorem C6_chain_walk (db : VLDB0) (next : VLEntry → Nat) (addr fuel : Nat)
    (l : List Nat) (hc : isChain db next addr l) (hf : l.length ≤ fuel) :
    ∃ es, walk_hash_fuel db next fuel addr = some es ∧
      List.Forall₂ (fun a e => vlreadentry db a = some e) l es ∧ l.Nodup := by
  obtain ⟨es, hw, hF⟩ := walk_hash_fuel_chain db next l addr fuel hc hf
  exact ⟨es, hw, hF, isChain_nodup db next l addr hc⟩

/-- C6 witness: the 3-element chain 200, 400, 600 of dbC6 resolves through
C6_chain_walk, yielding its three records in order. -/
theorem C6_witness :
    ∃ es, walk_hash_fuel dbC6 (fun e => e.nextNameHash) 3 200 = some es ∧
      List.Forall₂ (fun a e => vlreadentry dbC6 a = some e) [200, 400, 600] es ∧
      ([200, 400, 600] : List Nat).Nodup :=
  C6_chain_walk dbC6 (fun e => e.nextNameHash) 200 3 [200, 400, 600]
    ⟨by decide, rfl, eC6a, rfl,
     ⟨by decide, rfl, eC6b, rfl,
      ⟨by decide, rfl, eC6c, rfl, rfl⟩⟩⟩
    (by decide)

theorem lookup_loop_succ (db : VLDB0) (volname : List Nat) (k a : Nat) :
    lookup_loop db volname (k + 1) (a + 1) =
      match vlreadentry db (a + 1) with
      | none => none
      | some e =>
          if e.name == volname then some (some e)
          else lookup_loop db volname k e.nextNameHash := rfl

theorem lookup_loop_zero (db : VLDB0) (volname : List Nat) (fuel : Nat) :
    lookup_loop db volname fuel 0 = some none := by
  cases fuel <;> rfl

theorem lookup_loop_chain (db : VLDB0) (volname : List Nat) :
    ∀ (l : List Nat) (es : List VLEntry) (addr fuel : Nat),
      isChain db (fun e => e.nextNameHash) addr l →
      List.Forall₂ (fun a e => vlreadentry db a = some e) l es →
      l.length ≤ fuel →
      lookup_loop db volname fuel addr =
        some (es.find? (fun e => e.name == volname)) := by
  intro l
  induction l with
  | nil =>
      intro es addr fuel hc hF _
      cases hF
      simp only [isChain] at hc
      subst hc
      rw [lookup_loop_zero]
      rfl
  | cons a rest ih =>
      intro es addr fuel hc hF hf
      simp only [isChain] at hc
      obtain ⟨hne, ha, e0, he0, hrest⟩ := hc
      subst ha
      cases hF with
      | cons hrel hFrest =>
          rename_i e es'
          have hee : e = e0 := by
            rw [hrel] at he0
            exact Option.some.inj he0
          subst hee
          obtain ⟨k, rfl⟩ : ∃ k, fuel = k + 1 := by
            cases fuel with
            | zero => simp only [List.length_cons] at hf; omega
            | succ k => exact ⟨k, rfl⟩
          obtain ⟨m, hm⟩ : ∃ m, a = m + 1 := Nat.exists_eq_succ_of_ne_zero hne
          subst hm
          rw [lookup_loop_succ, hrel]
          dsimp only
          by_cases hname : (e.name == volname) = true
          · rw [if_pos hname]
            simp only [List.find?_cons, hname]
          · rw [if_neg hname]
            rw [Bool.not_eq_true] at hname
            simp only [List.find?_cons, hname]
            exact ih es' e.nextNameHash k hrest hFrest
              (by simp only [List.length_cons] at hf; omega)

/-- C3: on an open handle whose name-hash bucket for the hashed name heads a
well-formed (acyclic, 0-terminated) chain, VLDB0.lookup_name hashes the name,
reads the bucket head, walks the chain and returns exactly the first record
of the chain whose name field matches the argument, or no match (without
error) when the chain is exhausted or empty. -/
theorem C3_lookup_by_name (db : VLDB0) (volname : List Nat)
    (idx addr fuel : Nat) (l : List Nat) (es : List VLEntry)
    (hhash : hash_name volname = some idx)
    (hbucket : db.vl_header.VolnameHash.get? idx = some addr)
    (hc : isChain db (fun e => e.nextNameHash) addr l)
    (hF : List.Forall₂ (fun a e => vlreadentry db a = some e) l es)
    (hf : l.length ≤ fuel) :
    lookup_name_fuel db fuel volname =
      some (es.find? (fun e => e.name == volname)) := by
  unfold lookup_name_fuel
  rw [hhash]
  dsimp only
  rw [hbucket]
  exact lookup_loop_chain db volname l es addr fuel hc hF hf

/-- C3 witness: in dbC3 the name a hashes to bucket 34, whose chain holds
exactly the record eC3 at address 100; lookup finds it. -/
theorem C3_witness :
    lookup_name_fuel dbC3 1 nameC3 =
      some (([eC3]).find? (fun e => e.name == nameC3)) :=
  C3_lookup_by_name dbC3 nameC3 34 100 1 [100] [eC3]
    rfl rfl
    ⟨by decide, rfl, eC3, rfl, rfl⟩
    (List.Forall₂.cons rfl List.Forall₂.nil)
    (by decide)

theorem walk_entries_fuel_succ (db : VLDB0) (k addr : Nat) :
    walk_entries_fuel db (k + 1) addr =
      if addr < db.vl_header.eofPtr then
        match vlreadentry db addr with
        | none => none
        | some e =>
          if e.flags = 8 then walk_entries_fuel db k (addr + 8192)
          else
            match walk_entries_fuel db k (addr + 148) with
            | none => none
            | some rest => some (e :: rest)
      else some [] := rfl

theorem walk_entries_fuel_spec (db : VLDB0) :
    ∀ (fuel addr : Nat) (l : List VLEntry),
      walk_entries_fuel db fuel addr = some l →
      ∀ e ∈ l, e.flags ≠ 8 ∧
        ∃ a, addr ≤ a ∧ a < db.vl_header.eofPtr ∧ vlreadentry db a = some e := by
  intro fuel
  induction fuel with
  | zero =>
      intro addr l h
      rw [show walk_entries_fuel db 0 addr = none from rfl] at h
      cases h
  | succ k ih =>
      intro addr l h
      rw [walk_entries_fuel_succ] at h
      by_cases hlt : addr < db.vl_header.eofPtr
      · rw [if_pos hlt] at h
        cases hre : vlreadentry db addr with
        | none => rw [hre] at h; cases h
        | some e0 =>
            rw [hre] at h
            dsimp only at h
            by_cases hfl : e0.flags = 8
            · rw [if_pos hfl] at h
              intro e he
              obtain ⟨hne8, a, ha1, ha2, ha3⟩ := ih (addr + 8192) l h e he
              exact ⟨hne8, a, by omega, ha2, ha3⟩
            · rw [if_neg hfl] at h
              cases hrest : walk_entries_fuel db k (addr + 148) with
              | none => rw [hrest] at h; cases h
              | some rest =>
                  rw [hrest] at h
                  dsimp only at h
                  have hl : e0 :: rest = l := Option.some.inj h
                  subst hl
                  intro e he
                  rcases List.mem_cons.mp he with heq | hmem
                  · subst heq
                    exact ⟨hfl, addr, Nat.le_refl _, hlt, hre⟩
                  · obtain ⟨hne8, a, ha1, ha2, ha3⟩ := ih (addr + 148) rest hrest e hmem
                    exact ⟨hne8, a, by omega, ha2, ha3⟩
      · rw [if_neg hlt] at h
        have hl : ([] : List VLEntry) = l := Option.some.inj h
        subst hl
        intro e he
        cases he

/-- C4: every record the sequential scan of VLDB0.walk_entries yields was
decoded at an address between the catalog's headersize (inclusive) and its
eofPtr (exclusive), and no yielded record carries the continuation-block
flags value 8: records whose flags equal 8 are skipped over as 8192-byte
blocks, all others advance the scan by the 148-byte record size. -/
theorem C4_scan_skips_continuation (db : VLDB0) (l : List VLEntry)
    (h : walk_entries db = some l) :
    ∀ e ∈ l, e.flags ≠ 8 ∧
      ∃ a, db.vl_header.headersize ≤ a ∧ a < db.vl_header.eofPtr ∧
        vlreadentry db a = some e := by
  unfold walk_entries at h
  exact walk_entries_fuel_spec db _ _ l h

/-- C4 witness: the scan of dbC4 yields exactly its one record, which the
theorem places below eofPtr with flags distinct from 8. -/
theorem C4_witness :
    walk_entries dbC4 = some [eC4] ∧
      (eC4.flags ≠ 8 ∧
        ∃ a, dbC4.vl_header.headersize ≤ a ∧ a < dbC4.vl_header.eofPtr ∧
          vlreadentry dbC4 a = some eC4) := by
  have hw : walk_entries dbC4 = some [eC4] := rfl
  exact ⟨hw, C4_scan_skips_continuation dbC4 [eC4] hw eC4 (List.mem_singleton.mpr rfl)⟩

/-- C10: the catalog's packed-address table decodes to exactly 255 entries,
indexed 0 through 254; VLDB0.lookup_server at slot 255 (the unused-site
sentinel BADSERVERID) fails with an index-out-of-range error (modelled as
none) instead of returning a Server. -/
theorem C10_lookup_server_bound (b : Bytes) (vh : VLHeader)
    (h : VLHeader.decode b = some vh) :
    vh.IpMappedAddr.length = 255 ∧
      (∀ n, n < 255 → (vh.IpMappedAddr.get? n).isSome = true) ∧
      ∀ db : VLDB0, db.vl_header = vh → lookup_server db 255 = none := by
  unfold VLHeader.decode at h
  by_cases hs : b.size = 132120
  · rw [if_pos hs] at h
    have hv := Option.some.inj h
    subst hv
    refine ⟨by simp, ?_, ?_⟩
    · intro n hn
      rw [List.get?_eq_getElem?]
      dsimp only
      rw [List.getElem?_eq_getElem (by simpa using hn)]
      rfl
    · intro db hdb
      unfold lookup_server
      rw [hdb]
      dsimp only
      have hnone : ((List.range 255).map (fun i => be32 b (40 + 4 * i))).get? 255 = none := by
        rw [List.get?_eq_getElem?]
        rw [List.getElem?_eq_none]
        simp
      rw [hnone]
  · rw [if_neg hs] at h
    cases h

/-- C10 witness: the all-zero catalog header decodes to a 255-entry table
and its handle's lookup_server at slot 255 raises (returns none). -/
theorem C10_witness :
    vhC10.IpMappedAddr.length = 255 ∧ lookup_server dbC10 255 = none :=
  ⟨(C10_lookup_server_bound bC10 vhC10 rfl).1,
   (C10_lookup_server_bound bC10 vhC10 rfl).2.2 dbC10 rfl⟩

/-- C5 counterexample: the packed value 0xFF000401 selects continuation
block 4 and entry index 1; both assertions of lookup_mh pass (the claimed
valid ranges are 0 to 4 and 1 to 63), yet the retained block-address table
of a handle holds exactly 4 addresses, so resolution raises IndexError
(none) instead of yielding a Server with the entry's UUID and addresses as
the claim states. -/
theorem C5_counterexample :
    (4278191105 / 16777216 = 255 ∧ 4278191105 / 256 % 65536 = 4 ∧
      4278191105 % 256 = 1 ∧ dbC5x.mhblocks.length = 4) ∧
    server_of dbC5x 7 4278191105 = none := by
  exact ⟨⟨by decide, by decide, by decide, rfl⟩, rfl⟩

/-- C5 amended: VLDB0._server resolves a slot's packed value as the claim
states for the 0 case, the direct case, and the indirect case with block
index 0 to 3; the assertion accepts block indexes up to 4, but the retained
table (always the 4-entry contaddr of the first continuation block, see the
last conjunct) makes block 4 fail with an index error instead of resolving. -/
theorem C5_amended_resolver (db : VLDB0) (number addr : Nat) :
    (server_of db number 0 = some ⟨number, none, []⟩) ∧
    (addr ≠ 0 → addr < 4294967296 → addr / 16777216 ≠ 255 →
      server_of db number addr = some ⟨number, none, [inet_ntoa addr]⟩) ∧
    (addr / 16777216 = 255 → addr / 256 % 65536 ≤ 4 →
      1 ≤ addr % 256 → addr % 256 ≤ 63 →
      ∀ base, db.mhblocks.get? (addr / 256 % 65536) = some base →
        server_of db number addr =
          match mhreadentry db (base + addr % 256 * 128) with
          | none => none
          | some mh => some ⟨number, some mh.uuid, mh.addrs⟩) ∧
    (addr / 16777216 = 255 → addr / 256 % 65536 = 4 →
      1 ≤ addr % 256 → addr % 256 ≤ 63 → db.mhblocks.length = 4 →
      server_of db number addr = none) ∧
    (∀ f : FileM, openVLDB f = some db → db.mhblocks.length = 4) := by
  refine ⟨rfl, ?_, ?_, ?_, ?_⟩
  · intro h0 _h32 hmsb
    unfold server_of
    rw [if_pos h0, if_neg hmsb]
  · intro hmsb hblock hi1 hi2 base hbase
    have h0 : addr ≠ 0 := by omega
    unfold server_of lookup_mh
    rw [if_pos h0, if_pos hmsb, if_pos hblock, if_pos ⟨hi1, hi2⟩, hbase]
    dsimp only
    cases mhreadentry db (base + addr % 256 * 128) <;> rfl
  · intro hmsb hblock hi1 hi2 hlen
    have h0 : addr ≠ 0 := by omega
    have hnone : db.mhblocks.get? (addr / 256 % 65536) = none := by
      rw [List.get?_eq_getElem?]
      exact List.getElem?_eq_none (by omega)
    unfold server_of lookup_mh
    rw [if_pos h0, if_pos hmsb, if_pos (by omega : addr / 256 % 65536 ≤ 4),
        if_pos ⟨hi1, hi2⟩, hnone]
  · intro f hopen
    unfold openVLDB at hopen
    cases h1 : UbikHeader.decode ⟨min 16 f.size, f.byteAt⟩ with
    | none => rw [h1] at hopen; cases hopen
    | some uh =>
        rw [h1] at hopen
        dsimp only at hopen
        cases h2 : VLHeader.decode (vlread f 0 132120) with
        | none => rw [h2] at hopen; cases hopen
        | some vh =>
            rw [h2] at hopen
            dsimp only at hopen
            cases h3 : MHBlockHeader.decode (vlread f vh.SIT 128) vh.SIT with
            | none => rw [h3] at hopen; cases hopen
            | some bh =>
                rw [h3] at hopen
                dsimp only at hopen
                have hdb := Option.some.inj hopen
                unfold MHBlockHeader.decode at h3
                by_cases hsz : (vlread f vh.SIT 128).size = 128
                · rw [if_pos hsz] at h3
                  dsimp only at h3
                  by_cases hfl : be32 (vlread f vh.SIT 128) 12 = 8
                  · rw [if_pos hfl] at h3
                    have hbh := Option.some.inj h3
                    rw [← hdb]
                    dsimp only
                    rw [← hbh]
                    rfl
                  · rw [if_neg hfl] at h3; cases h3
                · rw [if_neg hsz] at h3; cases h3

/-- C5 witness: concrete instances of every case of the amended resolver
over dbC5w (4 zero block addresses, zero file), the handle dbC5o obtained
from an open, and the direct address 0x0A000001 (10.0.0.1). -/
theorem C5_witness :
    server_of dbC5w 1 0 = some ⟨1, none, []⟩ ∧
    server_of dbC5w 2 167772161 = some ⟨2, none, [inet_ntoa 167772161]⟩ ∧
    server_of dbC5w 3 4278190081 = some ⟨3, some mhC5.uuid, mhC5.addrs⟩ ∧
    dbC5o.mhblocks.length = 4 :=
  ⟨(C5_amended_resolver dbC5w 1 0).1,
   (C5_amended_resolver dbC5w 2 167772161).2.1 (by decide) (by decide) (by decide),
   Eq.trans
     ((C5_amended_resolver dbC5w 3 4278190081).2.2.1 (by decide) (by decide)
       (by decide) (by decide) 0 rfl)
     rfl,
   (C5_amended_resolver dbC5o 0 0).2.2.2.2 fileC5o rfl⟩

/-- C1 counterexample: fileC1a and fileC1b differ exactly in the first magic
byte of the top-level header (222 versus 0), so at most one of them can
carry the expected magic, yet openVLDB succeeds on both: open never fails
with InvalidHeader, refuting the claim that every file whose first 4 bytes
are not the expected magic fails to open. -/
theorem C1_counterexample :
    fileC1a.byteAt 0 = 222 ∧ fileC1b.byteAt 0 = 0 ∧
    (openVLDB fileC1a).isSome = true ∧ (openVLDB fileC1b).isSome = true :=
  ⟨rfl, rfl, rfl, rfl⟩

/-- C1 amended: VLDB0.__init__ decodes the top-level header without any
magic or version validation: whether an open succeeds does not depend on
the 16-byte top-level header region at all (two files of equal size that
agree on every byte from offset 16 up open identically); open only fails on
short reads or on a continuation-block flags mismatch. -/
theorem C1_amended_open_no_validation (f g : FileM) (hs : f.size = g.size)
    (hb : ∀ i, 16 ≤ i → f.byteAt i = g.byteAt i) :
    (openVLDB f).isSome = (openVLDB g).isSome := by
  have hv : ∀ (a sz off : Nat), be32 (vlread f a sz) off = be32 (vlread g a sz) off := by
    intro a sz off
    unfold be32 vlread DBASE_OFFSET
    dsimp only
    rw [hb (a + 64 + off) (by omega), hb (a + 64 + (off + 1)) (by omega),
        hb (a + 64 + (off + 2)) (by omega), hb (a + 64 + (off + 3)) (by omega)]
  have hsz : ∀ (a sz : Nat), (vlread f a sz).size = (vlread g a sz).size := by
    intro a sz
    unfold vlread
    dsimp only
    rw [hs]
  unfold openVLDB UbikHeader.decode
  dsimp only
  by_cases h16 : min 16 f.size = 16
  · have h16g : min 16 g.size = 16 := by rw [← hs]; exact h16
    rw [if_pos h16, if_pos h16g]
    dsimp only
    unfold VLHeader.decode
    by_cases hvh : (vlread f 0 132120).size = 132120
    · have hvhg : (vlread g 0 132120).size = 132120 := by rw [← hsz]; exact hvh
      rw [if_pos hvh, if_pos hvhg]
      dsimp only
      rw [← hv 0 132120 132116]
      unfold MHBlockHeader.decode
      by_cases hm : (vlread f (be32 (vlread f 0 132120) 132116) 128).size = 128
      · have hmg : (vlread g (be32 (vlread f 0 132120) 132116) 128).size = 128 := by
          rw [← hsz]; exact hm
        rw [if_pos hm, if_pos hmg]
        dsimp only
        rw [← hv (be32 (vlread f 0 132120) 132116) 128 12]
        by_cases hfl : be32 (vlread f (be32 (vlread f 0 132120) 132116) 128) 12 = 8
        · rw [if_pos hfl, if_pos hfl]
          dsimp only
          rw [Option.isSome_some, Option.isSome_some]
        · rw [if_neg hfl, if_neg hfl]
      · have hmg : ¬ (vlread g (be32 (vlread f 0 132120) 132116) 128).size = 128 := by
          rw [← hsz]; exact hm
        rw [if_neg hm, if_neg hmg]
    · have hvhg : ¬ (vlread g 0 132120).size = 132120 := by rw [← hsz]; exact hvh
      rw [if_neg hvh, if_neg hvhg]
  · have h16g : ¬ min 16 g.size = 16 := by rw [← hs]; exact h16
    rw [if_neg h16, if_neg h16g]

/-- C1 witness: the amended theorem applied to the two concrete files of the
counterexample, which agree above offset 16. -/
theorem C1_witness :
    fileC1a.size = fileC1b.size ∧
    (∀ i, 16 ≤ i → fileC1a.byteAt i = fileC1b.byteAt i) ∧
    (openVLDB fileC1a).isSome = (openVLDB fileC1b).isSome := by
  have hb : ∀ i, 16 ≤ i → fileC1a.byteAt i = fileC1b.byteAt i := by
    intro i hi
    show (if i = 0 then 222 else if i = 79 then 8 else 0) = (if i = 79 then 8 else 0)
    rw [if_neg (by omega : ¬ i = 0)]
  exact ⟨rfl, hb, C1_amended_open_no_validation fileC1a fileC1b rfl hb⟩

/-- C8 counterexample: reading 10 bytes at logical address 0 of the 70-byte
fileC8 yields a 6-byte result: Python file.read silently returns the shorter
byte string, refuting the claim that vlread fails with an IOError rather
than returning fewer than the requested bytes. -/
theorem C8_counterexample :
    (vlread fileC8 0 10).size = 6 ∧ (vlread fileC8 0 10).size ≠ 10 :=
  ⟨rfl, by decide⟩

/-- C8 amended: vlread seeks to physical offset address + 64 and returns the
bytes found there; its length is the minimum of the request and the bytes
remaining before end-of-file (so exactly the requested length whenever
enough bytes remain), and a shorter request never raises: short reads
return the shorter byte string. -/
theorem C8_amended_vlread (f : FileM) (address size : Nat) :
    (vlread f address size).size = min size (f.size - (address + DBASE_OFFSET)) ∧
    (∀ i, (vlread f address size).data i = f.byteAt (address + DBASE_OFFSET + i)) ∧
    (address + DBASE_OFFSET + size ≤ f.size → (vlread f address size).size = size) := by
  refine ⟨rfl, fun i => rfl, fun h => ?_⟩
  show min size (f.size - (address + DBASE_OFFSET)) = size
  unfold DBASE_OFFSET at h ⊢
  omega

/-- C8 witness: the amended contract evaluated on the 200-byte fileC8w. -/
theorem C8_witness :
    (0 + DBASE_OFFSET + 20 ≤ fileC8w.size) ∧
    (vlread fileC8w 0 20).size = 20 ∧
    (vlread fileC8w 0 20).data 3 = fileC8w.byteAt (0 + DBASE_OFFSET + 3) :=
  ⟨by decide, (C8_amended_vlread fileC8w 0 20).2.2 (by decide),
   (C8_amended_vlread fileC8w 0 20).2.1 3⟩

/-- C7: evaluating MHEntry.decode at bufC7, whose word at byte offset 80
(the flags field immediately after the 15 packed addresses, vals 22 of the
struct layout) is 1 and whose word at offset 84 (the first of the 11 spare
words, vals 23) is 2, shows that the decoder stores 2 in its flags field:
it reads the spare word, one word past the flags field the claim (and the
struct layout itself) designates. -/
theorem C7_mhentry_flags_bug :
    be32 bufC7 80 = 1 ∧ be32 bufC7 84 = 2 ∧
    (MHEntry.decode bufC7 0).map (fun m => m.flags) = some 2 ∧
    (MHEntry.decode bufC7 0).map (fun m => m.addrs) = some [] :=
  ⟨rfl, rfl, rfl, rfl⟩

theorem byteAtL_lt (l : List Nat) (hb : ∀ b ∈ l, b < 256) (i : Nat) :
    byteAtL l i < 256 := by
  unfold byteAtL
  cases hq : l.get? i with
  | none => simp
  | some v => simpa using hb v (List.get?_mem hq)

theorem byteAtL_drop (l : List Nat) (n i : Nat) :
    byteAtL (l.drop n) i = byteAtL l (n + i) := by
  unfold byteAtL
  rw [List.get?_drop]

theorem take_two_eq (l : List Nat) (h : 2 ≤ l.length) :
    l.take 2 = [byteAtL l 0, byteAtL l 1] := by
  rcases l with _ | ⟨a, _ | ⟨b, t⟩⟩
  · simp only [List.length_nil] at h; omega
  · simp only [List.length_cons, List.length_nil] at h; omega
  · rfl

theorem take_four_eq (l : List Nat) (h : 4 ≤ l.length) :
    l.take 4 = [byteAtL l 0, byteAtL l 1, byteAtL l 2, byteAtL l 3] := by
  rcases l with _ | ⟨a, _ | ⟨b, _ | ⟨c, _ | ⟨d, t⟩⟩⟩⟩
  · simp only [List.length_nil] at h; omega
  · simp only [List.length_cons, List.length_nil] at h; omega
  · simp only [List.length_cons, List.length_nil] at h; omega
  · simp only [List.length_cons, List.length_nil] at h; omega
  · rfl

theorem be32bytesL_be32L (l : List Nat) (off : Nat) (hb : ∀ b ∈ l, b < 256)
    (h : off + 4 ≤ l.length) :
    be32bytesL (be32L l off) = (l.drop off).take 4 := by
  have h0 := byteAtL_lt l hb off
  have h1 := byteAtL_lt l hb (off + 1)
  have h2 := byteAtL_lt l hb (off + 2)
  have h3 := byteAtL_lt l hb (off + 3)
  rw [take_four_eq (l.drop off) (by simp only [List.length_drop]; omega)]
  rw [byteAtL_drop, byteAtL_drop, byteAtL_drop, byteAtL_drop]
  simp only [Nat.add_zero]
  unfold be32bytesL be32L
  simp only [List.cons.injEq, and_true]
  refine ⟨?_, ?_, ?_, ?_⟩ <;> omega

theorem be16bytesL_be16L (l : List Nat) (off : Nat) (hb : ∀ b ∈ l, b < 256)
    (h : off + 2 ≤ l.length) :
    be16bytesL (be16L l off) = (l.drop off).take 2 := by
  have h0 := byteAtL_lt l hb off
  have h1 := byteAtL_lt l hb (off + 1)
  rw [take_two_eq (l.drop off) (by simp only [List.length_drop]; omega)]
  rw [byteAtL_drop, byteAtL_drop]
  simp only [Nat.add_zero]
  unfold be16bytesL be16L
  simp only [List.cons.injEq, and_true]
  refine ⟨?_, ?_⟩ <;> omega

theorem le32bytesL_le32L (l : List Nat) (off : Nat) (hb : ∀ b ∈ l, b < 256)
    (h : off + 4 ≤ l.length) :
    le32bytesL (le32L l off) = (l.drop off).take 4 := by
  have h0 := byteAtL_lt l hb off
  have h1 := byteAtL_lt l hb (off + 1)
  have h2 := byteAtL_lt l hb (off + 2)
  have h3 := byteAtL_lt l hb (off + 3)
  rw [take_four_eq (l.drop off) (by simp only [List.length_drop]; omega)]
  rw [byteAtL_drop, byteAtL_drop, byteAtL_drop, byteAtL_drop]
  simp only [Nat.add_zero]
  unfold le32bytesL le32L
  simp only [List.cons.injEq, and_true]
  refine ⟨?_, ?_, ?_, ?_⟩ <;> omega

theorem take_drop_recompose (l : List Nat) (a b : Nat) :
    (l.drop a).take b ++ l.drop (a + b) = l.drop a := by
  have h := List.take_append_drop b (l.drop a)
  rw [List.drop_drop] at h
  exact h

theorem uuid_roundtrip (l : List Nat) (hlen : l.length = 16)
    (hb : ∀ b ∈ l, b < 256) :
    UUID.encodeL (UUID.fromBytesL l) = some l := by
  unfold UUID.fromBytesL UUID.encodeL
  dsimp only
  rw [if_pos ?cond]
  case cond =>
    have h8 := byteAtL_lt l hb 8
    have h9 := byteAtL_lt l hb 9
    refine ⟨?_, ?_, ?_, h8, h9, ?_, ?_⟩
    · unfold be32L
      have c0 := byteAtL_lt l hb 0
      have c1 := byteAtL_lt l hb (0 + 1)
      have c2 := byteAtL_lt l hb (0 + 2)
      have c3 := byteAtL_lt l hb (0 + 3)
      omega
    · unfold be16L
      have c4 := byteAtL_lt l hb 4
      have c5 := byteAtL_lt l hb (4 + 1)
      omega
    · unfold be16L
      have c6 := byteAtL_lt l hb 6
      have c7 := byteAtL_lt l hb (6 + 1)
      omega
    · simp only [List.length_take, List.length_drop, hlen]
      decide
    · intro x hx
      exact hb x (List.drop_subset 10 l (List.take_subset 6 (l.drop 10) hx))
  · rw [be32bytesL_be32L l 0 hb (by omega), be16bytesL_be16L l 4 hb (by omega),
        be16bytesL_be16L l 6 hb (by omega)]
    have h89 : byteAtL l 8 :: byteAtL l 9 :: (l.drop 10).take 6 =
        (l.drop 8).take 2 ++ (l.drop 10).take 6 := by
      rw [take_two_eq (l.drop 8) (by simp only [List.length_drop]; omega)]
      rw [byteAtL_drop, byteAtL_drop]
      rfl
    rw [h89]
    have hnode : (l.drop 10).take 6 = l.drop 10 :=
      List.take_of_length_le (by simp only [List.length_drop, hlen]; omega)
    rw [hnode]
    have r1 : (l.drop 8).take 2 ++ l.drop 10 = l.drop 8 := take_drop_recompose l 8 2
    have r2 : (l.drop 6).take 2 ++ l.drop 8 = l.drop 6 := take_drop_recompose l 6 2
    have r3 : (l.drop 4).take 2 ++ l.drop 6 = l.drop 4 := take_drop_recompose l 4 2
    rw [List.drop_zero, r1]
    simp only [List.append_assoc]
    rw [r2, r3, List.take_append_drop]

theorem beWordsL_length : ∀ (n : Nat) (l : List Nat), (beWordsL n l).length = n := by
  intro n
  induction n with
  | zero => intro l; rfl
  | succ k ih => intro l; simp only [beWordsL, List.length_cons, ih]

theorem encodeAddrs_decode : ∀ (n : Nat) (rest : List Nat),
    rest.length = 4 * n → (∀ b ∈ rest, b < 256) →
    Sysid.encodeAddrs ((beWordsL n rest).map inet_ntoa) = some rest := by
  intro n
  induction n with
  | zero =>
      intro rest hlen _
      have h : rest = [] := List.eq_nil_of_length_eq_zero (by omega)
      subst h
      rfl
  | succ k ih =>
      intro rest hlen hball
      rcases rest with _ | ⟨w, _ | ⟨x, _ | ⟨y, _ | ⟨z, t⟩⟩⟩⟩
      · simp only [List.length_nil] at hlen; omega
      · simp only [List.length_cons, List.length_nil] at hlen; omega
      · simp only [List.length_cons, List.length_nil] at hlen; omega
      · simp only [List.length_cons, List.length_nil] at hlen; omega
      · have hlt : t.length = 4 * k := by
          simp only [List.length_cons] at hlen; omega
        have hw : w < 256 := hball w (by simp)
        have hx : x < 256 := hball x (by simp)
        have hy : y < 256 := hball y (by simp)
        have hz : z < 256 := hball z (by simp)
        rw [show beWordsL (k + 1) (w :: x :: y :: z :: t) =
              be32L (w :: x :: y :: z :: t) 0 :: beWordsL k t from rfl]
        rw [List.map_cons]
        have hbe : be32L (w :: x :: y :: z :: t) 0 =
            w * 16777216 + x * 65536 + y * 256 + z := rfl
        have hnt : inet_ntoa (be32L (w :: x :: y :: z :: t) 0) = [w, x, y, z] := by
          rw [hbe]
          unfold inet_ntoa
          simp only [List.cons.injEq, and_true]
          refine ⟨?_, ?_, ?_, ?_⟩ <;> omega
        rw [hnt]
        have hcond : w < 256 ∧ x < 256 ∧ y < 256 ∧ z < 256 := ⟨hw, hx, hy, hz⟩
        have haton : inet_aton [w, x, y, z] = some [w, x, y, z] := by
          unfold inet_aton
          dsimp only
          rw [if_pos hcond]
        rw [show Sysid.encodeAddrs ([w, x, y, z] :: (beWordsL k t).map inet_ntoa) =
              match inet_aton [w, x, y, z] with
              | none => none
              | some pa =>
                match Sysid.encodeAddrs ((beWordsL k t).map inet_ntoa) with
                | none => none
                | some tail => some (pa ++ tail) from rfl]
        rw [haton]
        dsimp only
        rw [ih t hlt (fun b hbm => hball b (by simp [hbm]))]
        rfl

/-- C9: every byte string the sysid decoder accepts (correct magic and
version, address count at most 255, exact total length) re-encodes, through
Sysid.encode, to a byte string identical to the original input. -/
theorem C9_decode_encode_roundtrip (data : List Nat) (s : Sysid)
    (hb : ∀ b ∈ data, b < 256) (h : Sysid.decode data = some s) :
    Sysid.encode s = some data := by
  unfold Sysid.decode at h
  dsimp only at h
  by_cases h8 : data.length < 8
  · rw [if_pos h8] at h; cases h
  rw [if_neg h8] at h
  by_cases hmagic : le32L data 0 ≠ 0x88aabbcc
  · rw [if_pos hmagic] at h; cases h
  rw [if_neg hmagic] at h
  have hmagic' : le32L data 0 = 0x88aabbcc := not_not.mp hmagic
  by_cases hver : le32L data 4 ≠ 1
  · rw [if_pos hver] at h; cases h
  rw [if_neg hver] at h
  have hver' : le32L data 4 = 1 := not_not.mp hver
  by_cases h24 : data.length < 24
  · rw [if_pos h24] at h; cases h
  rw [if_neg h24] at h
  by_cases h28 : data.length < 28
  · rw [if_pos h28] at h; cases h
  rw [if_neg h28] at h
  by_cases hn : 255 < le32L data 24
  · rw [if_pos hn] at h; cases h
  rw [if_neg hn] at h
  by_cases hlen : data.length ≠ 28 + 4 * le32L data 24
  · rw [if_pos hlen] at h; cases h
  rw [if_neg hlen] at h
  have hlen' : data.length = 28 + 4 * le32L data 24 := not_not.mp hlen
  have hs := (Option.some.inj h).symm
  subst hs
  unfold Sysid.encode
  dsimp only
  rw [if_pos ?guard]
  case guard =>
    refine ⟨?_, ?_, ?_⟩
    · rw [hmagic']; decide
    · rw [hver']; decide
    · rw [List.length_map, beWordsL_length]; omega
  · rw [uuid_roundtrip ((data.drop 8).take 16)
        (by simp only [List.length_take, List.length_drop]; omega)
        (fun x hx => hb x (List.drop_subset 8 data (List.take_subset 16 (data.drop 8) hx)))]
    dsimp only
    rw [encodeAddrs_decode (le32L data 24) (data.drop 28)
        (by simp only [List.length_drop]; omega)
        (fun x hx => hb x (List.drop_subset 28 data hx))]
    dsimp only
    have hlen4 : ((beWordsL (le32L data 24) (data.drop 28)).map inet_ntoa).length =
        le32L data 24 := by
      rw [List.length_map, beWordsL_length]
    rw [hlen4]
    rw [le32bytesL_le32L data 0 hb (by omega), le32bytesL_le32L data 4 hb (by omega),
        le32bytesL_le32L data 24 hb (by omega)]
    rw [List.drop_zero]
    have r1 : (data.drop 24).take 4 ++ data.drop 28 = data.drop 24 :=
      take_drop_recompose data 24 4
    have r2 : (data.drop 8).take 16 ++ data.drop 24 = data.drop 8 :=
      take_drop_recompose data 8 16
    have r3 : (data.drop 4).take 4 ++ data.drop 8 = data.drop 4 :=
      take_drop_recompose data 4 4
    simp only [List.append_assoc]
    rw [r1, r2, r3, List.take_append_drop]

/-- C9 witness: the 32-byte sysid image dataC9 decodes to sC9 and encodes
back to exactly dataC9. -/
theorem C9_witness :
    (∀ b ∈ dataC9, b < 256) ∧ Sysid.decode dataC9 = some sC9 ∧
      Sysid.encode sC9 = some dataC9 :=
  ⟨by decide, rfl, C9_decode_encode_roundtrip dataC9 sC9 (by decide) rfl⟩
